import Mathlib

/-!
Verification of the Xline KV-store core against its specification.

The development shallowly embeds the Rust sources:
  * `src/engine/src/memory_engine.rs` — the in-memory storage engine
    (`MemoryEngine::{get, get_all, write_batch, get_snapshot, apply_snapshot}`);
  * `src/xline/src/client/kv/opts.rs` — the client request builders and their
    conversions into wire requests;
  * `src/xline/src/client/xline_client.rs` — the command glue
    (`Client::command_from_request_wrapper`);
  * `src/xline/src/storage/kvwatcher.rs` — the watcher subsystem
    (`Watcher::notify`, `WatcherMap::{insert, remove}`,
    `KvWatcher::{watch, cancel, handle_kv_updates}`).

Rust byte strings (`Vec<u8>`) are modelled as `List Nat`; machine integers
(`i64`, `i32`) as `Int` (no arithmetic in the modelled code overflows);
hash maps as association lists with unique keys; panics and fallible
operations as `Option` / `Except`.
-/

/-- Byte strings (`Vec<u8>` / `&[u8]`). -/
abbrev Bytes := List Nat

/-- Bytewise lexicographic comparison, mirroring Rust's `Ord for [u8]`
(element-wise; a strict prefix is less). -/
def cmpBytes : Bytes → Bytes → Ordering
  | [], [] => .eq
  | [], _ :: _ => .lt
  | _ :: _, [] => .gt
  | a :: as, b :: bs =>
    match compare a b with
    | .eq => cmpBytes as bs
    | o => o

theorem cmpBytes_eq_iff : ∀ a b : Bytes, cmpBytes a b = .eq ↔ a = b := by
  intro a
  induction a with
  | nil => intro b; cases b <;> simp [cmpBytes]
  | cons x xs ih =>
    intro b
    cases b with
    | nil => simp [cmpBytes]
    | cons y ys =>
      simp only [cmpBytes]
      rcases h : compare x y with hlt | heq | hgt
      · simp only []
        constructor
        · intro hc; exact absurd hc (by simp)
        · intro hc
          have : x = y := by
            have := List.cons.injEq x xs y ys ▸ hc
            simp at hc
            exact hc.1
          rw [this] at h
          simp [compare, compareOfLessAndEq] at h
      · have hxy : x = y := by
          have := Nat.compare_eq_eq.mp h
          exact this
        subst hxy
        simp [ih]
      · constructor
        · intro hc; exact absurd hc (by simp)
        · intro hc
          simp at hc
          rw [hc.1] at h
          simp [compare, compareOfLessAndEq] at h

instance {ε α : Type} [DecidableEq ε] [DecidableEq α] : DecidableEq (Except ε α)
  | .error e, .error f =>
    if h : e = f then .isTrue (by rw [h]) else .isFalse (by intro hc; cases hc; exact h rfl)
  | .error _, .ok _ => .isFalse (by intro hc; cases hc)
  | .ok _, .error _ => .isFalse (by intro hc; cases hc)
  | .ok a, .ok b =>
    if h : a = b then .isTrue (by rw [h]) else .isFalse (by intro hc; cases hc; exact h rfl)

/-- Association-list lookup modelling `HashMap::get` (decidable-equality keys). -/
def lookupA {α β : Type} [DecidableEq α] : List (α × β) → α → Option β
  | [], _ => none
  | (a, b) :: rest, k => if a = k then some b else lookupA rest k

/-- A single table of the memory engine (`HashMap<Vec<u8>, Vec<u8>>`). -/
abbrev MemoryTable := List (Bytes × Bytes)

/-- `HashMap::insert`: replace the binding when the key is present, add it
otherwise. -/
def tblInsert : MemoryTable → Bytes → Bytes → MemoryTable
  | [], k, v => [(k, v)]
  | (k', v') :: rest, k, v =>
    if k' = k then (k, v) :: rest else (k', v') :: tblInsert rest k v

/-- `HashMap::remove`: drop the binding of the key when present. -/
def tblRemove : MemoryTable → Bytes → MemoryTable
  | [], _ => []
  | (k', v') :: rest, k => if k' = k then rest else (k', v') :: tblRemove rest k

/-- The full engine state: `HashMap<String, MemoryTable>` behind the lock. -/
abbrev Engine := List (String × MemoryTable)

/-- Errors of the engine crate that the modelled code can produce. -/
inductive EngineError
  /-- `EngineError::TableNotFound` -/
  | tableNotFound (table : String)
  /-- `EngineError::UnderlyingError` -/
  | underlying (msg : String)
  deriving DecidableEq, Repr

/-- The write operations of a batch (`WriteOperation` in `engine_api`). -/
inductive WriteOperation
  /-- `WriteOperation::Put { table, key, value }` -/
  | put (table : String) (key value : Bytes)
  /-- `WriteOperation::Delete { table, key }` -/
  | delete (table : String) (key : Bytes)
  /-- `WriteOperation::DeleteRange { table, from, to }` -/
  | deleteRange (table : String) (fr toB : Bytes)
  deriving DecidableEq, Repr

/-- The table an operation names. -/
def WriteOperation.table : WriteOperation → String
  | .put t _ _ => t
  | .delete t _ => t
  | .deleteRange t _ _ => t

namespace MemoryEngine

/-- `MemoryEngine::new`: one empty table per name (`entry().or_insert` keeps
the first occurrence on duplicates). -/
def new (tables : List String) : Engine :=
  tables.foldl (fun acc t => if acc.any (fun p => p.1 = t) then acc else acc ++ [(t, [])]) []

/-- `MemoryEngine::get`. -/
def get (e : Engine) (table : String) (key : Bytes) : Except EngineError (Option Bytes) :=
  match lookupA e table with
  | none => .error (.tableNotFound table)
  | some t => .ok (lookupA t key)

/-- `MemoryEngine::get_all`: all bindings of the table sorted ascending by key. -/
def get_all (e : Engine) (table : String) : Except EngineError (List (Bytes × Bytes)) :=
  match lookupA e table with
  | none => .error (.tableNotFound table)
  | some t => .ok (t.mergeSort (fun a b => cmpBytes a.1 b.1 ≠ .gt))

/-- The retain predicate of the `DeleteRange` arm of `write_batch`
(`memory_engine.rs:147-157`): keep `key` iff `key < from`, or
`key > from ∧ key ≥ to`. -/
def deleteRangeRetain (fr toB key : Bytes) : Bool :=
  match cmpBytes key fr with
  | .lt => true
  | .eq => false
  | .gt =>
    match cmpBytes key toB with
    | .lt => false
    | _ => true

/-- Update the named table in place; `none` when the table is absent
(`inner.get_mut(table)` fails). -/
def engUpdate (e : Engine) (table : String) (f : MemoryTable → MemoryTable) : Option Engine :=
  match e with
  | [] => none
  | (n, t) :: rest =>
    if n = table then some ((n, f t) :: rest)
    else (engUpdate rest table f).map (fun e' => (n, t) :: e')

/-- One arm of the `for op in wr_ops` loop of `MemoryEngine::write_batch`. -/
def applyOp (e : Engine) : WriteOperation → Except EngineError Engine
  | .put table k v =>
    match engUpdate e table (fun t => tblInsert t k v) with
    | none => .error (.tableNotFound table)
    | some e' => .ok e'
  | .delete table k =>
    match engUpdate e table (fun t => tblRemove t k) with
    | none => .error (.tableNotFound table)
    | some e' => .ok e'
  | .deleteRange table fr toB =>
    match engUpdate e table (fun t => t.filter (fun kv => deleteRangeRetain fr toB kv.1)) with
    | none => .error (.tableNotFound table)
    | some e' => .ok e'

/-- `MemoryEngine::write_batch`: the loop mutates the locked map in place and
returns early on the first failing operation, so the result is the engine
state at the moment of return (partially mutated on error) together with the
error, if any.  `sync` is ignored by the in-memory engine. -/
def write_batch (e : Engine) (ops : List WriteOperation) (_sync : Bool) :
    Engine × Option EngineError :=
  match ops with
  | [] => (e, none)
  | op :: rest =>
    match applyOp e op with
    | .error err => (e, some err)
    | .ok e' => write_batch e' rest _sync

end MemoryEngine

theorem cmpBytes_swap : ∀ a b : Bytes, cmpBytes b a = (cmpBytes a b).swap := by
  intro a
  induction a with
  | nil => intro b; cases b <;> rfl
  | cons x xs ih =>
    intro b
    cases b with
    | nil => rfl
    | cons y ys =>
      simp only [cmpBytes]
      rcases h : compare x y with hlt | heq | hgt
      · have : compare y x = .gt := Nat.compare_eq_gt.mpr (Nat.compare_eq_lt.mp h)
        rw [this]; rfl
      · have hxy : x = y := Nat.compare_eq_eq.mp h
        subst hxy
        rw [Nat.compare_eq_eq.mpr rfl]
        exact ih ys
      · have : compare y x = .lt := Nat.compare_eq_lt.mpr (Nat.compare_eq_gt.mp h)
        rw [this]; rfl

theorem cmpBytes_gt_iff : ∀ a b : Bytes, cmpBytes a b = .gt ↔ cmpBytes b a = .lt := by
  intro a b
  rw [cmpBytes_swap a b]
  cases cmpBytes a b <;> decide

namespace MemoryEngine

theorem engUpdate_eq_none {e : Engine} {table : String} (f : MemoryTable → MemoryTable)
    (h : lookupA e table = none) : engUpdate e table f = none := by
  induction e with
  | nil => rfl
  | cons p rest ih =>
    obtain ⟨n, t⟩ := p
    simp only [lookupA] at h
    by_cases hn : n = table
    · simp [hn] at h
    · simp only [engUpdate, hn, if_false]
      rw [ih (by simpa [hn] using h)]
      rfl

theorem applyOp_error {e : Engine} {op : WriteOperation}
    (h : lookupA e op.table = none) :
    applyOp e op = .error (.tableNotFound op.table) := by
  cases op <;>
    simp only [applyOp, WriteOperation.table] at h ⊢ <;>
    rw [engUpdate_eq_none _ h]

theorem engUpdate_of_lookup {e : Engine} {table : String} {t : MemoryTable}
    (f : MemoryTable → MemoryTable) (h : lookupA e table = some t) :
    ∃ e', engUpdate e table f = some e' ∧ lookupA e' table = some (f t) := by
  induction e with
  | nil => simp [lookupA] at h
  | cons p rest ih =>
    obtain ⟨n, tb⟩ := p
    simp only [lookupA] at h
    by_cases hn : n = table
    · simp only [hn, if_true, Option.some.injEq] at h
      exact ⟨(n, f tb) :: rest, by simp [engUpdate, hn], by simp [lookupA, hn, h]⟩
    · simp only [hn, if_false] at h
      obtain ⟨e', he', hl⟩ := ih h
      exact ⟨(n, tb) :: e', by simp [engUpdate, hn, he'], by simp [lookupA, hn, hl]⟩

theorem lookupA_filter (p : Bytes → Bool) (k : Bytes) :
    ∀ t : MemoryTable,
      lookupA (t.filter (fun kv => p kv.1)) k = if p k then lookupA t k else none := by
  intro t
  induction t with
  | nil => simp [lookupA]
  | cons kv rest ih =>
    obtain ⟨k', v'⟩ := kv
    by_cases hk : k' = k
    · subst hk
      by_cases hp : p k' <;> simp [lookupA, hp, ih]
    · by_cases hp : p k' <;> simp [lookupA, hp, hk, ih]

theorem deleteRangeRetain_false_iff (fr toB k : Bytes) :
    deleteRangeRetain fr toB k = false
      ↔ (k = fr ∨ (cmpBytes fr k = .lt ∧ cmpBytes k toB = .lt)) := by
  unfold deleteRangeRetain
  cases h : cmpBytes k fr with
  | lt =>
    simp only [h]
    constructor
    · intro hc; exact absurd hc (by decide)
    · rintro (hc | ⟨hc, -⟩)
      · rw [hc, (cmpBytes_eq_iff fr fr).mpr rfl] at h; exact absurd h (by decide)
      · rw [cmpBytes_swap k fr, h] at hc; exact absurd hc (by decide)
  | eq =>
    have hk : k = fr := (cmpBytes_eq_iff k fr).mp h
    simp [h, hk]
  | gt =>
    have hfr : cmpBytes fr k = .lt := by rw [cmpBytes_swap k fr, h]; rfl
    have hne : ¬ k = fr := by
      intro hc; rw [hc, (cmpBytes_eq_iff fr fr).mpr rfl] at h; exact absurd h (by decide)
    simp only [h]
    cases h2 : cmpBytes k toB <;> simp [hne, hfr, h2]

theorem write_batch_singleton_ok {e : Engine} {op : WriteOperation} {e' : Engine} {s : Bool}
    (h : applyOp e op = .ok e') :
    write_batch e [op] s = (e', none) := by
  simp [write_batch, h]

end MemoryEngine

/-- C1: the claim states all-or-nothing batch atomicity, but `write_batch`
mutates the locked map op by op and returns early on the first unknown table:
the preceding `Put` to table `kv` stays applied even though the batch errors.
This refutes the claim at the batch `[Put kv [1] [2], Put bad [3] [4]]` on an
engine with table set `{kv}`. -/
theorem c1_write_batch_not_atomic_cex :
    MemoryEngine.write_batch (MemoryEngine.new ["kv"])
        [.put "kv" [1] [2], .put "bad" [3] [4]] false
      = ([("kv", [([1], [2])])], some (.tableNotFound "bad"))
    ∧ MemoryEngine.get ([("kv", [([1], [2])])] : Engine) "kv" [1] = .ok (some [2])
    ∧ MemoryEngine.get (MemoryEngine.new ["kv"]) "kv" [1] = .ok none := by
  refine ⟨by decide, by decide, by decide⟩

/-- C1 (amended): a write batch containing an operation naming an unknown
table returns `TableNotFound` for the first such operation; every operation
before it is applied and the failing operation and those after it are not.
The engine is left exactly in the state produced by the successful prefix. -/
theorem c1_write_batch_error_applies_preceding_ops :
    ∀ (e : Engine) (pre : List WriteOperation) (op : WriteOperation)
      (rest : List WriteOperation) (s : Bool),
      (MemoryEngine.write_batch e pre s).2 = none →
      lookupA (MemoryEngine.write_batch e pre s).1 op.table = none →
      MemoryEngine.write_batch e (pre ++ op :: rest) s
        = ((MemoryEngine.write_batch e pre s).1,
            some (.tableNotFound op.table)) := by
  intro e pre
  induction pre generalizing e with
  | nil =>
    intro op rest s _ hl
    simp only [MemoryEngine.write_batch] at hl
    simp only [List.nil_append, MemoryEngine.write_batch]
    rw [MemoryEngine.applyOp_error hl]
  | cons p pre' ih =>
    intro op rest s hok hl
    simp only [MemoryEngine.write_batch, List.cons_append] at hok hl ⊢
    rcases hap : MemoryEngine.applyOp e p with err | e'
    · simp [hap] at hok
    · simp only [hap] at hok hl ⊢
      exact ih e' op rest s hok hl

theorem c1_write_batch_error_applies_preceding_ops_witness :
    ((MemoryEngine.write_batch (MemoryEngine.new ["kv"]) [.put "kv" [1] [2]] false).2 = none
      ∧ lookupA (MemoryEngine.write_batch (MemoryEngine.new ["kv"])
          [.put "kv" [1] [2]] false).1 (WriteOperation.put "bad" [3] [4]).table = none)
    ∧ MemoryEngine.write_batch (MemoryEngine.new ["kv"])
        ([.put "kv" [1] [2]] ++ [WriteOperation.put "bad" [3] [4]] ++ [.delete "kv" [1]]) false
      = ((MemoryEngine.write_batch (MemoryEngine.new ["kv"]) [.put "kv" [1] [2]] false).1,
          some (.tableNotFound (WriteOperation.put "bad" [3] [4]).table)) :=
  ⟨⟨by decide, by decide⟩,
    c1_write_batch_error_applies_preceding_ops (MemoryEngine.new ["kv"])
      [.put "kv" [1] [2]] (WriteOperation.put "bad" [3] [4]) [.delete "kv" [1]] false
      (by decide) (by decide)⟩

/-- C2: the claim states that `DeleteRange` with `from = to` removes nothing,
but the retain predicate drops a key equal to `from` unconditionally: on a
table holding key `[5]`, `DeleteRange kv [5] [5]` deletes `[5]`. -/
theorem c2_delete_range_from_eq_to_cex :
    MemoryEngine.get ([("kv", [([5], [9])])] : Engine) "kv" [5] = .ok (some [9])
    ∧ (MemoryEngine.write_batch ([("kv", [([5], [9])])] : Engine)
        [.deleteRange "kv" [5] [5]] false).2 = none
    ∧ MemoryEngine.get ((MemoryEngine.write_batch ([("kv", [([5], [9])])] : Engine)
        [.deleteRange "kv" [5] [5]] false).1) "kv" [5] = .ok none := by
  refine ⟨by decide, by decide, by decide⟩

/-- C2 (amended): `DeleteRange table from to` removes exactly the keys `k`
with `k = from` or `from < k < to` (bytewise lexicographic order).  For
`from < to` this coincides with `from ≤ k < to`, but for `from = to` the key
equal to `from` is still removed (and nothing else is). -/
theorem c2_delete_range_removes_from_and_open_interval :
    ∀ (e : Engine) (table : String) (t : MemoryTable) (fr toB : Bytes),
      lookupA e table = some t →
      ∃ t',
        lookupA (MemoryEngine.write_batch e [.deleteRange table fr toB] false).1 table = some t'
        ∧ (MemoryEngine.write_batch e [.deleteRange table fr toB] false).2 = none
        ∧ ∀ k, lookupA t' k =
            if k = fr ∨ (cmpBytes fr k = .lt ∧ cmpBytes k toB = .lt) then none
            else lookupA t k := by
  intro e table t fr toB h
  obtain ⟨e', he', hl⟩ := MemoryEngine.engUpdate_of_lookup
    (fun tb => tb.filter (fun kv => MemoryEngine.deleteRangeRetain fr toB kv.1)) h
  have hb : MemoryEngine.write_batch e [.deleteRange table fr toB] false = (e', none) :=
    MemoryEngine.write_batch_singleton_ok (by simp [MemoryEngine.applyOp, he'])
  refine ⟨t.filter (fun kv => MemoryEngine.deleteRangeRetain fr toB kv.1),
    by rw [hb]; exact hl, by rw [hb], ?_⟩
  intro k
  rw [MemoryEngine.lookupA_filter]
  by_cases hrem : k = fr ∨ (cmpBytes fr k = .lt ∧ cmpBytes k toB = .lt)
  · rw [if_pos hrem, if_neg]
    simp [(MemoryEngine.deleteRangeRetain_false_iff fr toB k).mpr hrem]
  · rw [if_neg hrem, if_pos]
    rcases hr : MemoryEngine.deleteRangeRetain fr toB k with hf | ht
    · exact absurd ((MemoryEngine.deleteRangeRetain_false_iff fr toB k).mp hr) hrem
    · rfl

theorem c2_delete_range_removes_from_and_open_interval_witness :
    lookupA ([("kv", [([5], [9])])] : Engine) "kv" = some [([5], [9])]
    ∧ ∃ t',
        lookupA (MemoryEngine.write_batch ([("kv", [([5], [9])])] : Engine)
            [.deleteRange "kv" [5] [5]] false).1 "kv" = some t'
        ∧ (MemoryEngine.write_batch ([("kv", [([5], [9])])] : Engine)
            [.deleteRange "kv" [5] [5]] false).2 = none
        ∧ ∀ k, lookupA t' k =
            if k = [5] ∨ (cmpBytes [5] k = .lt ∧ cmpBytes k [5] = .lt) then none
            else lookupA ([([5], [9])] : MemoryTable) k :=
  ⟨by decide,
    c2_delete_range_removes_from_and_open_interval
      ([("kv", [([5], [9])])] : Engine) "kv" [([5], [9])] [5] [5] (by decide)⟩

/-! ## Snapshots (C3)

`MemoryEngine::get_snapshot` serializes the whole table map with `bincode`
and `MemoryEngine::apply_snapshot` deserializes the blob and replaces the
engine state with it.  `bincode` is an external crate; the spec only demands
"an implementation-defined but round-trippable encoding of the full table
map", so the encoding is modelled by an executable length-prefixed binary
codec in the style of bincode's format (length, then elements). -/

/-- A string's bytes, for the codec (table names are serialized like byte
strings). -/
def strToBytes (s : String) : List Nat := s.toList.map Char.toNat

/-- Inverse direction for the codec. -/
def strOfBytes (bs : List Nat) : String := String.mk (bs.map Char.ofNat)

theorem strOfBytes_strToBytes (s : String) : strOfBytes (strToBytes s) = s := by
  unfold strOfBytes strToBytes
  rw [List.map_map]
  have h : (Char.ofNat ∘ Char.toNat) = id := funext Char.ofNat_toNat
  rw [h, List.map_id]
  cases s; rfl

/-- Length-prefixed byte string. -/
def encBytes (b : List Nat) : List Nat := b.length :: b

/-- One `(key, value)` binding. -/
def encEntry (e : Bytes × Bytes) : List Nat := encBytes e.1 ++ encBytes e.2

/-- A table: entry count, then entries. -/
def encTable (t : MemoryTable) : List Nat := t.length :: t.flatMap encEntry

/-- A named table: name, then contents. -/
def encNamedTable (p : String × MemoryTable) : List Nat :=
  encBytes (strToBytes p.1) ++ encTable p.2

/-- `Modelled from the spec:` the `bincode::serialize` blob held by a
`MemorySnapshot`'s cursor (the crate is outside this repository; the spec
requires only a round-trippable encoding of the full table map): table
count, then the named tables. -/
def encodeEngine (db : Engine) : List Nat := db.length :: db.flatMap encNamedTable

/-- Decode a length-prefixed byte string, returning it and the remainder. -/
def decBytes : List Nat → Option (List Nat × List Nat)
  | [] => none
  | n :: rest => if n ≤ rest.length then some (rest.take n, rest.drop n) else none

/-- Decode `n` table entries. -/
def decEntries : Nat → List Nat → Option (MemoryTable × List Nat)
  | 0, bs => some ([], bs)
  | n + 1, bs => do
    let (k, bs₁) ← decBytes bs
    let (v, bs₂) ← decBytes bs₁
    let (t, bs₃) ← decEntries n bs₂
    some ((k, v) :: t, bs₃)

/-- Decode one table. -/
def decTable : List Nat → Option (MemoryTable × List Nat)
  | [] => none
  | n :: rest => decEntries n rest

/-- Decode `n` named tables. -/
def decNamedTables : Nat → List Nat → Option (Engine × List Nat)
  | 0, bs => some ([], bs)
  | n + 1, bs => do
    let (nm, bs₁) ← decBytes bs
    let (t, bs₂) ← decTable bs₁
    let (db, bs₃) ← decNamedTables n bs₂
    some ((strOfBytes nm, t) :: db, bs₃)

/-- `Modelled from the spec:` the `bincode::deserialize` side of the
snapshot blob. -/
def decodeEngine : List Nat → Option Engine
  | [] => none
  | n :: rest => (decNamedTables n rest).map Prod.fst

theorem decBytes_enc (b r : List Nat) : decBytes (encBytes b ++ r) = some (b, r) := by
  unfold encBytes decBytes
  simp only [List.cons_append]
  rw [if_pos (by simp)]
  rw [List.take_left, List.drop_left]

theorem decEntries_enc : ∀ (t : MemoryTable) (r : List Nat),
    decEntries t.length (t.flatMap encEntry ++ r) = some (t, r) := by
  intro t
  induction t with
  | nil => intro r; simp [decEntries]
  | cons e rest ih =>
    intro r
    obtain ⟨k, v⟩ := e
    simp [decEntries, encEntry, decBytes_enc, ih, List.append_assoc]

theorem decTable_enc (t : MemoryTable) (r : List Nat) :
    decTable (encTable t ++ r) = some (t, r) := by
  unfold encTable decTable
  simp only [List.cons_append]
  exact decEntries_enc t r

theorem decNamedTables_enc : ∀ (db : Engine) (r : List Nat),
    decNamedTables db.length (db.flatMap encNamedTable ++ r) = some (db, r) := by
  intro db
  induction db with
  | nil => intro r; simp [decNamedTables]
  | cons p rest ih =>
    intro r
    obtain ⟨nm, t⟩ := p
    simp [decNamedTables, encNamedTable, decBytes_enc, decTable_enc, ih,
      strOfBytes_strToBytes, List.append_assoc]

theorem decodeEngine_encodeEngine (db : Engine) : decodeEngine (encodeEngine db) = some db := by
  unfold encodeEngine decodeEngine
  have h := decNamedTables_enc db []
  rw [List.append_nil] at h
  simp only [h]
  rfl

namespace MemoryEngine

/-- `MemoryEngine::get_snapshot`: serialize the whole table map under the
read lock into a fresh cursor (the `path`/`tables` arguments are unused by
the in-memory engine; serialization of an in-memory map cannot fail). -/
def get_snapshot (e : Engine) : List Nat := encodeEngine e

/-- `MemoryEngine::apply_snapshot`: deserialize the blob and replace the
engine's entire state with it (the previous state is discarded). -/
def apply_snapshot (_self : Engine) (snapshot : List Nat) : Except EngineError Engine :=
  match decodeEngine snapshot with
  | none => .error (.underlying "deserialize memory engine failed")
  | some db => .ok db

/-- A sequence of write batches applied in order, stopping at the first
failing batch (callers stop issuing batches after an error). -/
def applyBatches (e : Engine) (bs : List (List WriteOperation)) : Engine × Option EngineError :=
  match bs with
  | [] => (e, none)
  | ops :: rest =>
    match write_batch e ops false with
    | (e', none) => applyBatches e' rest
    | (e', some err) => (e', some err)

end MemoryEngine

/-- C3: for any engine state reached from a fresh engine by successful write
batches, applying the snapshot to a fresh engine with the same table set
restores the exact state, hence `get_all` agrees on every table; and the
snapshot blob taken before further writes still decodes to the captured
state (it is an independent copy). -/
theorem c3_snapshot_roundtrip :
    ∀ (tables : List String) (batches : List (List WriteOperation)),
      (MemoryEngine.applyBatches (MemoryEngine.new tables) batches).2 = none →
      (MemoryEngine.apply_snapshot (MemoryEngine.new tables)
          (MemoryEngine.get_snapshot (MemoryEngine.applyBatches (MemoryEngine.new tables) batches).1)
        = .ok (MemoryEngine.applyBatches (MemoryEngine.new tables) batches).1)
      ∧ (∀ t, MemoryEngine.get_all
            ((MemoryEngine.apply_snapshot (MemoryEngine.new tables)
              (MemoryEngine.get_snapshot
                (MemoryEngine.applyBatches (MemoryEngine.new tables) batches).1)).toOption.getD [])
            t
          = MemoryEngine.get_all (MemoryEngine.applyBatches (MemoryEngine.new tables) batches).1 t)
      ∧ (∀ laterOps : List WriteOperation,
          MemoryEngine.apply_snapshot
              (MemoryEngine.write_batch
                (MemoryEngine.applyBatches (MemoryEngine.new tables) batches).1 laterOps false).1
              (MemoryEngine.get_snapshot
                (MemoryEngine.applyBatches (MemoryEngine.new tables) batches).1)
            = .ok (MemoryEngine.applyBatches (MemoryEngine.new tables) batches).1) := by
  intro tables batches _
  have hrt : ∀ self : Engine,
      MemoryEngine.apply_snapshot self
          (MemoryEngine.get_snapshot (MemoryEngine.applyBatches (MemoryEngine.new tables) batches).1)
        = .ok (MemoryEngine.applyBatches (MemoryEngine.new tables) batches).1 := by
    intro self
    unfold MemoryEngine.apply_snapshot MemoryEngine.get_snapshot
    rw [decodeEngine_encodeEngine]
  refine ⟨hrt _, ?_, fun laterOps => hrt _⟩
  intro t
  rw [hrt (MemoryEngine.new tables)]
  rfl

theorem c3_snapshot_roundtrip_witness :
    (MemoryEngine.applyBatches (MemoryEngine.new ["kv", "lease", "auth"])
        [[.put "kv" [1] [7]], [.put "kv" [2] [8], .delete "kv" [1]]]).2 = none
    ∧ MemoryEngine.apply_snapshot (MemoryEngine.new ["kv", "lease", "auth"])
        (MemoryEngine.get_snapshot
          (MemoryEngine.applyBatches (MemoryEngine.new ["kv", "lease", "auth"])
            [[.put "kv" [1] [7]], [.put "kv" [2] [8], .delete "kv" [1]]]).1)
      = .ok (MemoryEngine.applyBatches (MemoryEngine.new ["kv", "lease", "auth"])
          [[.put "kv" [1] [7]], [.put "kv" [2] [8], .delete "kv" [1]]]).1 :=
  ⟨by decide,
    (c3_snapshot_roundtrip ["kv", "lease", "auth"]
      [[.put "kv" [1] [7]], [.put "kv" [2] [8], .delete "kv" [1]]] (by decide)).1⟩

/-! ## Key ranges and client request builders (C6, C7)

`KeyRange` lives in `src/xline/src/server/command.rs`, which is not among
the provided sources; its operations are modelled from the spec (§3, §4.B). -/

/-- The `KeyRange` struct: a `(start, end)` pair of byte strings with the
conventions `end = []` (single key), `end = [0]` (unbounded above),
`start = [0] ∧ end = [0]` (all keys). -/
structure KeyRange where
  start : Bytes
  end_ : Bytes
  deriving DecidableEq, Repr

/-- `Modelled from the spec:` `KeyRange::get_prefix` (§3: "derived from
`start` by incrementing its last non-0xFF byte; if the key is all 0xFF, the
prefix range equals the universe").  The canonical end marker increments the
last byte below 0xFF and drops the bytes after it; an all-0xFF key maps to
the unbounded marker `[0]`. -/
def keyRangeGetPrefixEnd : Bytes → Bytes
  | [] => [0]
  | b :: rest =>
    if rest.all (fun x => 255 ≤ x) then
      if b < 255 then [b + 1] else [0]
    else b :: keyRangeGetPrefixEnd rest

/-- `Modelled from the spec:` `KeyRange::contains_key` (§4.B: exact match
`k = start ∧ end = []`, or `start ≤ k < end` with `end = [0]` meaning
unbounded above). -/
def KeyRange.contains_key (r : KeyRange) (k : Bytes) : Bool :=
  (k = r.start ∧ r.end_ = [])
  ∨ (cmpBytes r.start k ≠ .gt ∧ (r.end_ = [0] ∨ cmpBytes k r.end_ = .lt))

theorem keyRangeGetPrefixEnd_allFF {p : Bytes} (h : p.all (fun x => 255 ≤ x)) :
    keyRangeGetPrefixEnd p = [0] := by
  induction p with
  | nil => rfl
  | cons b rest ih =>
    simp only [List.all_cons, Bool.and_eq_true] at h
    simp only [keyRangeGetPrefixEnd, h.2, if_true]
    rw [if_neg]
    exact Nat.not_lt.mpr (by exact_mod_cast of_decide_eq_true h.1)

theorem keyRangeGetPrefixEnd_lastByte (p : Bytes) (b : Nat) (hb : b < 255) :
    keyRangeGetPrefixEnd (p ++ [b]) = p ++ [b + 1] := by
  induction p with
  | nil => simp [keyRangeGetPrefixEnd, hb]
  | cons x rest ih =>
    have hall : ((rest ++ [b]).all (fun y => 255 ≤ y)) = false := by
      rw [List.all_append]
      simp [Nat.not_le.mpr hb]
    simp only [List.cons_append, keyRangeGetPrefixEnd, List.append_eq]
    rw [hall]
    simp [ih]

/-- `rpc::RangeRequest`, restricted to the fields the conversion from
`RangeOptions` writes (`key`, `range_end`); the remaining wire fields are
copied through unchanged by the conversion. -/
structure RangeRequest where
  key : Bytes
  range_end : Bytes
  deriving DecidableEq, Repr

/-- `rpc::DeleteRangeRequest`, restricted the same way. -/
structure DeleteRangeRequest where
  key : Bytes
  range_end : Bytes
  deriving DecidableEq, Repr

/-- `RangeOptions`: the inner request plus the three range-encoding flags. -/
structure RangeOptions where
  inner : RangeRequest
  all_keys : Bool
  prefix_flag : Bool
  from_key : Bool
  deriving DecidableEq, Repr

namespace RangeOptions

/-- `RangeOptions::new` (= `Default::default()`). -/
def new : RangeOptions := ⟨⟨[], []⟩, false, false, false⟩

/-- `RangeOptions::with_key`. -/
def with_key (o : RangeOptions) (key : Bytes) : RangeOptions :=
  { o with inner := { o.inner with key := key } }

/-- `RangeOptions::with_range_end`: clears all three flags. -/
def with_range_end (o : RangeOptions) (range_end : Bytes) : RangeOptions :=
  { o with all_keys := false, prefix_flag := false, from_key := false,
           inner := { o.inner with range_end := range_end } }

/-- `RangeOptions::with_all_keys`. -/
def with_all_keys (o : RangeOptions) : RangeOptions :=
  { o with all_keys := true, prefix_flag := false, from_key := false }

/-- `RangeOptions::with_prefix` (source field name: `prefix`). -/
def with_prefix_flag (o : RangeOptions) : RangeOptions :=
  { o with all_keys := false, prefix_flag := true, from_key := false }

/-- `RangeOptions::with_from_key`. -/
def with_from_key (o : RangeOptions) : RangeOptions :=
  { o with all_keys := false, prefix_flag := false, from_key := true }

end RangeOptions

/-- `impl From<RangeOptions> for rpc::RangeRequest` (`opts.rs:239-264`):
three sequential `if`s over the flags. -/
def rangeRequestOfOptions (option : RangeOptions) : RangeRequest :=
  let request := option.inner
  let request :=
    if option.all_keys then { request with key := [0], range_end := [0] } else request
  let request :=
    if option.prefix_flag then
      if request.key = [] then { request with key := [0], range_end := [0] }
      else { request with range_end := keyRangeGetPrefixEnd request.key }
    else request
  let request :=
    if option.from_key then
      let request := if request.key = [] then { request with key := [0] } else request
      { request with range_end := [0] }
    else request
  request

/-- `DeleteRangeOptions`: the inner request plus the three flags. -/
structure DeleteRangeOptions where
  inner : DeleteRangeRequest
  all_keys : Bool
  prefix_flag : Bool
  from_key : Bool
  deriving DecidableEq, Repr

namespace DeleteRangeOptions

/-- `DeleteRangeOptions::new`. -/
def new : DeleteRangeOptions := ⟨⟨[], []⟩, false, false, false⟩

/-- `DeleteRangeOptions::with_key`. -/
def with_key (o : DeleteRangeOptions) (key : Bytes) : DeleteRangeOptions :=
  { o with inner := { o.inner with key := key } }

/-- `DeleteRangeOptions::with_range_end`: clears all three flags. -/
def with_range_end (o : DeleteRangeOptions) (range_end : Bytes) : DeleteRangeOptions :=
  { o with all_keys := false, prefix_flag := false, from_key := false,
           inner := { o.inner with range_end := range_end } }

/-- `DeleteRangeOptions::with_all_keys`. -/
def with_all_keys (o : DeleteRangeOptions) : DeleteRangeOptions :=
  { o with all_keys := true, prefix_flag := false, from_key := false }

/-- `DeleteRangeOptions::with_prefix` (source field name: `prefix`). -/
def with_prefix_flag (o : DeleteRangeOptions) : DeleteRangeOptions :=
  { o with all_keys := false, prefix_flag := true, from_key := false }

/-- `DeleteRangeOptions::with_from_key`. -/
def with_from_key (o : DeleteRangeOptions) : DeleteRangeOptions :=
  { o with all_keys := false, prefix_flag := false, from_key := true }

end DeleteRangeOptions

/-- `impl From<DeleteRangeOptions> for rpc::DeleteRangeRequest`
(`opts.rs:353-378`): identical flag handling. -/
def deleteRangeRequestOfOptions (option : DeleteRangeOptions) : DeleteRangeRequest :=
  let request := option.inner
  let request :=
    if option.all_keys then { request with key := [0], range_end := [0] } else request
  let request :=
    if option.prefix_flag then
      if request.key = [] then { request with key := [0], range_end := [0] }
      else { request with range_end := keyRangeGetPrefixEnd request.key }
    else request
  let request :=
    if option.from_key then
      let request := if request.key = [] then { request with key := [0] } else request
      { request with range_end := [0] }
    else request
  request

/-- C6: the claim says a prefix range over an all-0xFF key "becomes
all_keys", but the conversions only replace `range_end`; the key stays
`[0xFF]`, producing the from-key encoding `([0xFF], [0])`, not the all-keys
request `([0], [0])` (shown for both the Range and DeleteRange
conversions). -/
theorem c6_prefix_all_ff_not_all_keys_cex :
    rangeRequestOfOptions ((RangeOptions.new.with_key [255]).with_prefix_flag)
      = { key := [255], range_end := [0] }
    ∧ deleteRangeRequestOfOptions
        ((DeleteRangeOptions.new.with_key [255]).with_prefix_flag)
      = { key := [255], range_end := [0] }
    ∧ rangeRequestOfOptions (RangeOptions.new.with_all_keys) = { key := [0], range_end := [0] }
    ∧ ({ key := [255], range_end := [0] } : RangeRequest)
        ≠ { key := [0], range_end := [0] } := by
  refine ⟨by decide, by decide, by decide, by decide⟩

/-- C6 (amended): for both conversions, `all_keys` yields
`key = [0], range_end = [0]`; `prefix` with non-empty `p` yields `key = p`
and `range_end = get_prefix(p)` — the last byte below 0xFF incremented with
the bytes after it dropped — and for an all-0xFF `p` the end marker is `[0]`
so the request is the from-key range of `p`, not the all-keys request;
`from_key` with non-empty `k` yields `key = k, range_end = [0]`. -/
theorem c6_range_encoding_conventions :
    (∀ p : Bytes,
      rangeRequestOfOptions ((RangeOptions.new.with_key p).with_all_keys)
        = { key := [0], range_end := [0] }
      ∧ deleteRangeRequestOfOptions ((DeleteRangeOptions.new.with_key p).with_all_keys)
        = { key := [0], range_end := [0] })
    ∧ (∀ p : Bytes, p ≠ [] →
      rangeRequestOfOptions ((RangeOptions.new.with_key p).with_prefix_flag)
        = { key := p, range_end := keyRangeGetPrefixEnd p }
      ∧ deleteRangeRequestOfOptions ((DeleteRangeOptions.new.with_key p).with_prefix_flag)
        = { key := p, range_end := keyRangeGetPrefixEnd p })
    ∧ (∀ (q : Bytes) (b : Nat), b < 255 →
        keyRangeGetPrefixEnd (q ++ [b]) = q ++ [b + 1])
    ∧ (∀ p : Bytes, p.all (fun x => 255 ≤ x) →
        keyRangeGetPrefixEnd p = [0])
    ∧ (∀ k : Bytes, k ≠ [] →
      rangeRequestOfOptions ((RangeOptions.new.with_key k).with_from_key)
        = { key := k, range_end := [0] }
      ∧ deleteRangeRequestOfOptions ((DeleteRangeOptions.new.with_key k).with_from_key)
        = { key := k, range_end := [0] }) := by
  refine ⟨?_, ?_, ?_, ?_, ?_⟩
  · intro p
    constructor <;> rfl
  · intro p hp
    constructor <;>
      simp [rangeRequestOfOptions, deleteRangeRequestOfOptions, RangeOptions.new,
        RangeOptions.with_key, RangeOptions.with_prefix_flag, DeleteRangeOptions.new,
        DeleteRangeOptions.with_key, DeleteRangeOptions.with_prefix_flag, hp]
  · intro q b hb
    exact keyRangeGetPrefixEnd_lastByte q b hb
  · intro p hp
    exact keyRangeGetPrefixEnd_allFF hp
  · intro k hk
    constructor <;>
      simp [rangeRequestOfOptions, deleteRangeRequestOfOptions, RangeOptions.new,
        RangeOptions.with_key, RangeOptions.with_from_key, DeleteRangeOptions.new,
        DeleteRangeOptions.with_key, DeleteRangeOptions.with_from_key, hk]

theorem c6_range_encoding_conventions_witness :
    (([6, 255] : Bytes) ≠ []
      ∧ rangeRequestOfOptions ((RangeOptions.new.with_key [6, 255]).with_prefix_flag)
          = { key := [6, 255], range_end := keyRangeGetPrefixEnd [6, 255] }
      ∧ deleteRangeRequestOfOptions
          ((DeleteRangeOptions.new.with_key [6, 255]).with_prefix_flag)
          = { key := [6, 255], range_end := keyRangeGetPrefixEnd [6, 255] })
    ∧ (([9] : Bytes) ≠ []
      ∧ rangeRequestOfOptions ((RangeOptions.new.with_key [9]).with_from_key)
          = { key := [9], range_end := [0] }) :=
  ⟨⟨by decide, (c6_range_encoding_conventions.2.1 [6, 255] (by decide)).1,
      (c6_range_encoding_conventions.2.1 [6, 255] (by decide)).2⟩,
    ⟨by decide, (c6_range_encoding_conventions.2.2.2.2 [9] (by decide)).1⟩⟩

/-- `rpc::PutRequest`, restricted to the fields the command glue reads. -/
structure PutRequest where
  key : Bytes
  value : Bytes
  deriving DecidableEq, Repr

/-- `rpc::Compare`, restricted to the fields the command glue reads
(`key`, `range_end`). -/
structure Compare where
  key : Bytes
  range_end : Bytes
  deriving DecidableEq, Repr

/-- `rpc::RequestOp`: one operation of a txn branch.  The command glue never
inspects these. -/
inductive RequestOp
  | requestRange (r : RangeRequest)
  | requestPut (p : PutRequest)
  | requestDeleteRange (d : DeleteRangeRequest)
  deriving DecidableEq, Repr

/-- `rpc::TxnRequest`. -/
structure TxnRequest where
  compare : List Compare
  success : List RequestOp
  failure : List RequestOp
  deriving DecidableEq, Repr

/-- `rpc::RequestWrapper`, restricted to the four variants that
`command_from_request_wrapper` proposes (the source marks every other
variant unreachable on this path). -/
inductive RequestWrapper
  | rangeRequest (r : RangeRequest)
  | putRequest (p : PutRequest)
  | deleteRangeRequest (d : DeleteRangeRequest)
  | txnRequest (t : TxnRequest)
  deriving DecidableEq, Repr

/-- `Command`, restricted to the key ranges and the wrapped request (the
propose id is a fresh UUID and carries no data from the request). -/
structure Command where
  key_ranges : List KeyRange
  request : RequestWrapper
  deriving DecidableEq, Repr

/-- `Client::command_from_request_wrapper` (`xline_client.rs:70-97`): the
`key_ranges` extraction. -/
def commandFromRequestWrapper (wrapper : RequestWrapper) : Command :=
  let key_ranges :=
    match wrapper with
    | .rangeRequest req => [KeyRange.mk req.key req.range_end]
    | .putRequest req => [KeyRange.mk req.key []]
    | .deleteRangeRequest req => [KeyRange.mk req.key req.range_end]
    | .txnRequest req => req.compare.map (fun cmp => KeyRange.mk cmp.key cmp.range_end)
  Command.mk key_ranges wrapper

/-- C7: the command glue extracts exactly the specified key ranges: a Range
request yields `(key, range_end)`; a Put yields the single-key range
`(key, [])`; a DeleteRange yields `(key, range_end)`; a Txn yields exactly
the ranges of its compare entries, none from its success or failure
branches. -/
theorem c7_command_key_ranges :
    (∀ r : RangeRequest,
      (commandFromRequestWrapper (.rangeRequest r)).key_ranges
        = [KeyRange.mk r.key r.range_end])
    ∧ (∀ p : PutRequest,
      (commandFromRequestWrapper (.putRequest p)).key_ranges
        = [KeyRange.mk p.key []])
    ∧ (∀ d : DeleteRangeRequest,
      (commandFromRequestWrapper (.deleteRangeRequest d)).key_ranges
        = [KeyRange.mk d.key d.range_end])
    ∧ (∀ (cmps : List Compare) (succ fail : List RequestOp),
      (commandFromRequestWrapper (.txnRequest ⟨cmps, succ, fail⟩)).key_ranges
        = cmps.map (fun cmp => KeyRange.mk cmp.key cmp.range_end)) :=
  ⟨fun _ => rfl, fun _ => rfl, fun _ => rfl, fun _ _ _ => rfl⟩

/-! ## Watcher subsystem (`kvwatcher.rs`; C4, C5, C8, C9, C10) -/

/-- `rpc::KeyValue`, restricted to the fields the watcher code reads. -/
structure KeyValue where
  key : Bytes
  value : Bytes
  mod_revision : Int
  deriving DecidableEq, Repr

/-- `rpc::Event`: the event type (`r#type`, an `i32` enum tag) and the
(prost-optional) key-value. -/
structure Event where
  type_ : Int
  kv : Option KeyValue
  deriving DecidableEq, Repr

/-- `rpc::WatchResponse`, restricted to the fields `Watcher::notify` sets:
the header revision, the watch id and the events. -/
structure WatchResponse where
  revision : Int
  watch_id : Int
  events : List Event
  deriving DecidableEq, Repr

/-- The `Watcher` struct (its identity is `watch_id`; the channel and stop
signal are per-watcher runtime state modelled separately by `ChanState`). -/
structure Watcher where
  key_range : KeyRange
  watch_id : Int
  start_rev : Int
  filters : List Int
  deriving DecidableEq, Repr

/-- The pure part of `Watcher::notify` (`kvwatcher.rs:109-127`): drop the
batch when its revision precedes the watcher's start revision, retain the
events whose type no filter matches, send nothing when none remain. -/
def Watcher.notifyResponse (w : Watcher) (revision : Int) (events : List Event) :
    Option WatchResponse :=
  if revision < w.start_rev then none
  else if events.filter (fun event => w.filters.all (fun f => decide (f ≠ event.type_))) = []
    then none
  else some ⟨revision, w.watch_id,
    events.filter (fun event => w.filters.all (fun f => decide (f ≠ event.type_)))⟩

/-- Per-watcher runtime state: the bounded delivery channel (`res_tx`, with
its pending queue and capacity), whether the receiving side has closed it,
and whether `stop_notify` has been fired. -/
structure ChanState where
  closed : Bool
  queue : List WatchResponse
  cap : Nat
  stopFired : Bool
  deriving DecidableEq, Repr

/-- `Watcher::notify` including the `try_send` effects: no response — no
send; channel closed — fire `stop_notify` (the watcher itself is untouched);
channel full — the source hits `todo!()` (modelled as `none`); otherwise the
response is queued. -/
def Watcher.notify (w : Watcher) (c : ChanState) (revision : Int) (events : List Event) :
    Option ChanState :=
  match w.notifyResponse revision events with
  | none => some c
  | some response =>
    if c.closed then some { c with stopFired := true }
    else if c.cap ≤ c.queue.length then none
    else some { c with queue := c.queue ++ [response] }

/-- Replace the binding of a present key (first occurrence). -/
def assocUpdate {α β : Type} [DecidableEq α] : List (α × β) → α → β → List (α × β)
  | [], _, _ => []
  | (a, b) :: rest, k, v => if a = k then (k, v) :: rest else (a, b) :: assocUpdate rest k v

/-- Remove the binding of a key (first occurrence). -/
def assocRemove {α β : Type} [DecidableEq α] : List (α × β) → α → List (α × β)
  | [], _ => []
  | (a, b) :: rest, k => if a = k then rest else (a, b) :: assocRemove rest k

/-- `WatcherMap`: all watchers by id, plus the dispatch index by key range
(the `HashSet<WatchId>` bucket is a duplicate-free id list). -/
structure WatcherMap where
  watchers : List (Int × Watcher)
  index : List (KeyRange × List Int)
  deriving DecidableEq, Repr

/-- `WatcherMap::insert` (`kvwatcher.rs:174-188`): insert into both
structures; either `assert!` failing (id already in `watchers`, or already
in the range's bucket) is a panic, modelled as `none`. -/
def WatcherMap.insert (m : WatcherMap) (watcher : Watcher) : Option WatcherMap :=
  if (lookupA m.watchers watcher.watch_id).isSome then none
  else
    match lookupA m.index watcher.key_range with
    | none =>
      some ⟨m.watchers ++ [(watcher.watch_id, watcher)],
            m.index ++ [(watcher.key_range, [watcher.watch_id])]⟩
    | some ids =>
      if watcher.watch_id ∈ ids then none
      else
        some ⟨m.watchers ++ [(watcher.watch_id, watcher)],
              assocUpdate m.index watcher.key_range (ids ++ [watcher.watch_id])⟩

/-- `WatcherMap::remove` (`kvwatcher.rs:192-209`): remove from both
structures, dropping the range bucket when it empties; a missing id, a
missing bucket, or an id absent from its bucket hits `expect`/`assert!`
(a panic), modelled as `none`. -/
def WatcherMap.remove (m : WatcherMap) (watch_id : Int) : Option WatcherMap :=
  match lookupA m.watchers watch_id with
  | none => none
  | some watcher =>
    match lookupA m.index watcher.key_range with
    | none => none
    | some ids =>
      if watch_id ∈ ids then
        if ids.filter (fun i => decide (i ≠ watch_id)) = [] then
          some ⟨assocRemove m.watchers watch_id, assocRemove m.index watcher.key_range⟩
        else
          some ⟨assocRemove m.watchers watch_id,
                assocUpdate m.index watcher.key_range
                  (ids.filter (fun i => decide (i ≠ watch_id)))⟩
      else none

/-- The `watch_ids` collected for one event's key in `handle_kv_updates`:
the ids of every index bucket whose range contains the key. -/
def indexSelects (m : WatcherMap) (kv : KeyValue) : List Int :=
  (m.index.filter (fun bucket => bucket.1.contains_key kv.key)).flatMap (fun bucket => bucket.2)

/-- The events of one update batch grouped to one watcher: selected by the
index and not below the watcher's start revision (`kv.mod_revision <
watcher.start_rev → continue`).  Batch order is preserved. -/
def eventsFor (m : WatcherMap) (watch_id : Int) (w : Watcher) (all_events : List Event) :
    List Event :=
  all_events.filter (fun event =>
    match event.kv with
    | none => false
    | some kv => decide (watch_id ∈ indexSelects m kv) && decide (w.start_rev ≤ kv.mod_revision))

/-- `KvWatcher::handle_kv_updates` (`kvwatcher.rs:313-354`), as the list of
`(watch_id, WatchResponse)` deliveries it attempts.  The two `panic!` sites
are modelled as `none`: an event with no `kv` (hit whenever the index is
non-empty), and an indexed id missing from `watchers`.  The per-watcher
grouping map is iterated in `watchers` order (the source order is the
unspecified `HashMap` iteration order); the map itself is only read. -/
def handleKvUpdates (m : WatcherMap) (revision : Int) (all_events : List Event) :
    Option (List (Int × WatchResponse)) :=
  if all_events.any (fun e => e.kv.isNone) && !m.index.isEmpty then none
  else if all_events.any (fun event =>
      match event.kv with
      | none => false
      | some kv => (indexSelects m kv).any (fun i => (lookupA m.watchers i).isNone)) then none
  else
    some (m.watchers.filterMap (fun p =>
      (Watcher.notifyResponse p.2 revision (eventsFor m p.1 p.2 all_events)).map
        (fun r => (p.1, r))))

/-- `KvWatcher::watch` (`kvwatcher.rs:238-282`).  The storage reads are
passed in: `currentRev` is `self.storage.revision()` and `hydrated` is the
result of `get_event_from_revision` (`[]` when that call errors).  The
returned response is the one `watcher.notify` computes for the hydrated
events (sending it is the channel step modelled by `Watcher.notify`);
`none` models the `panic!` on a hydrated event without `kv` or a failing
`WatcherMap::insert` assertion. -/
def kvWatcherWatch (m : WatcherMap) (currentRev : Int) (hydrated : List Event)
    (id : Int) (key_range : KeyRange) (start_rev : Int) (filters : List Int) :
    Option (WatcherMap × Option WatchResponse) :=
  let initial_events := if start_rev = 0 then [] else hydrated
  match initial_events.getLast? with
  | none =>
    (WatcherMap.insert m ⟨key_range, id, currentRev + 1, filters⟩).map (fun m' => (m', none))
  | some lastEvent =>
    match lastEvent.kv with
    | none => none
    | some kv =>
      (WatcherMap.insert m ⟨key_range, id, kv.mod_revision + 1, filters⟩).map
        (fun m' =>
          (m', Watcher.notifyResponse ⟨key_range, id, start_rev, filters⟩
                kv.mod_revision initial_events))

section AssocLemmas

variable {α β : Type} [DecidableEq α]

theorem lookupA_append_fresh {l : List (α × β)} {k : α} (v : β)
    (h : lookupA l k = none) : lookupA (l ++ [(k, v)]) k = some v := by
  induction l with
  | nil => simp [lookupA]
  | cons p rest ih =>
    obtain ⟨a, b⟩ := p
    simp only [lookupA] at h ⊢
    by_cases ha : a = k
    · simp [ha] at h
    · simp only [ha, if_false] at h ⊢
      exact ih h

theorem lookupA_assocUpdate_self {l : List (α × β)} {k : α} {b : β} (v : β)
    (h : lookupA l k = some b) : lookupA (assocUpdate l k v) k = some v := by
  induction l with
  | nil => simp [lookupA] at h
  | cons p rest ih =>
    obtain ⟨a, b'⟩ := p
    simp only [lookupA] at h
    by_cases ha : a = k
    · simp [assocUpdate, ha, lookupA]
    · simp only [ha, if_false] at h
      simp only [assocUpdate, ha, if_false, lookupA]
      exact ih h

theorem lookupA_none_of_not_mem {l : List (α × β)} {k : α}
    (h : k ∉ l.map Prod.fst) : lookupA l k = none := by
  induction l with
  | nil => rfl
  | cons p rest ih =>
    obtain ⟨a, b⟩ := p
    simp only [List.map_cons, List.mem_cons] at h
    push_neg at h
    simp only [lookupA]
    rw [if_neg (fun hc => h.1 hc.symm)]
    exact ih h.2

theorem lookupA_assocRemove_self {l : List (α × β)} {k : α}
    (hnd : (l.map Prod.fst).Nodup) : lookupA (assocRemove l k) k = none := by
  induction l with
  | nil => rfl
  | cons p rest ih =>
    obtain ⟨a, b⟩ := p
    simp only [List.map_cons, List.nodup_cons] at hnd
    simp only [assocRemove]
    by_cases ha : a = k
    · rw [if_pos ha]
      exact lookupA_none_of_not_mem (ha ▸ hnd.1)
    · rw [if_neg ha]
      simp only [lookupA, ha, if_false]
      exact ih hnd.2

end AssocLemmas

theorem watcherMap_insert_fresh (m : WatcherMap) (w : Watcher)
    (hw : lookupA m.watchers w.watch_id = none)
    (hb : ∀ ids, lookupA m.index w.key_range = some ids → w.watch_id ∉ ids) :
    ∃ m', m.insert w = some m'
      ∧ lookupA m'.watchers w.watch_id = some w
      ∧ ∃ ids, lookupA m'.index w.key_range = some ids ∧ w.watch_id ∈ ids := by
  unfold WatcherMap.insert
  simp only [hw, Option.isSome_none, Bool.false_eq_true, if_false]
  cases hidx : lookupA m.index w.key_range with
  | none =>
    refine ⟨_, rfl, lookupA_append_fresh _ hw, [w.watch_id], ?_, List.mem_singleton.mpr rfl⟩
    exact lookupA_append_fresh _ hidx
  | some ids =>
    have hni := hb ids hidx
    refine ⟨⟨m.watchers ++ [(w.watch_id, w)],
        assocUpdate m.index w.key_range (ids ++ [w.watch_id])⟩, ?_,
      lookupA_append_fresh _ hw, ids ++ [w.watch_id],
      lookupA_assocUpdate_self _ hidx, by simp⟩
    exact if_neg hni

theorem watcherMap_insert_dup (m : WatcherMap) (w : Watcher)
    (hw : (lookupA m.watchers w.watch_id).isSome) : m.insert w = none := by
  unfold WatcherMap.insert
  rw [if_pos hw]

theorem watcherMap_remove_found (m : WatcherMap) (id : Int) (w : Watcher) (ids : List Int)
    (hndw : (m.watchers.map Prod.fst).Nodup)
    (hndi : (m.index.map Prod.fst).Nodup)
    (hw : lookupA m.watchers id = some w)
    (hb : lookupA m.index w.key_range = some ids)
    (hmem : id ∈ ids) :
    ∃ m', m.remove id = some m'
      ∧ lookupA m'.watchers id = none
      ∧ lookupA m'.index w.key_range =
          (if ids.filter (fun i => decide (i ≠ id)) = [] then none
            else some (ids.filter (fun i => decide (i ≠ id)))) := by
  unfold WatcherMap.remove
  simp only [hw, hb, hmem, if_true]
  by_cases hemp : ids.filter (fun i => decide (i ≠ id)) = []
  · rw [if_pos hemp, if_pos hemp]
    exact ⟨_, rfl, lookupA_assocRemove_self hndw, lookupA_assocRemove_self hndi⟩
  · rw [if_neg hemp, if_neg hemp]
    exact ⟨_, rfl, lookupA_assocRemove_self hndw, lookupA_assocUpdate_self _ hb⟩

theorem watcherMap_remove_missing (m : WatcherMap) (id : Int)
    (hw : lookupA m.watchers id = none) : m.remove id = none := by
  unfold WatcherMap.remove
  simp only [hw]

/-- C8: registration inserts the watcher into both the by-id map and the
by-range index; inserting an already-present `watch_id` panics; `cancel`
removes from both structures, dropping the range bucket when it empties;
cancelling an unknown id panics.  Panics are the `none` results. -/
theorem c8_watcher_map_insert_remove :
    (∀ (m : WatcherMap) (w : Watcher),
      lookupA m.watchers w.watch_id = none →
      (∀ ids, lookupA m.index w.key_range = some ids → w.watch_id ∉ ids) →
      ∃ m', m.insert w = some m'
        ∧ lookupA m'.watchers w.watch_id = some w
        ∧ ∃ ids, lookupA m'.index w.key_range = some ids ∧ w.watch_id ∈ ids)
    ∧ (∀ (m : WatcherMap) (w : Watcher),
      (lookupA m.watchers w.watch_id).isSome → m.insert w = none)
    ∧ (∀ (m : WatcherMap) (id : Int) (w : Watcher) (ids : List Int),
      (m.watchers.map Prod.fst).Nodup →
      (m.index.map Prod.fst).Nodup →
      lookupA m.watchers id = some w →
      lookupA m.index w.key_range = some ids →
      id ∈ ids →
      ∃ m', m.remove id = some m'
        ∧ lookupA m'.watchers id = none
        ∧ lookupA m'.index w.key_range =
            (if ids.filter (fun i => decide (i ≠ id)) = [] then none
              else some (ids.filter (fun i => decide (i ≠ id)))))
    ∧ (∀ (m : WatcherMap) (id : Int),
      lookupA m.watchers id = none → m.remove id = none) :=
  ⟨watcherMap_insert_fresh, watcherMap_insert_dup, watcherMap_remove_found,
    watcherMap_remove_missing⟩

theorem c8_watcher_map_insert_remove_witness :
    (∃ m', WatcherMap.insert ⟨[], []⟩ ⟨⟨[1], [2]⟩, 5, 0, []⟩ = some m'
      ∧ lookupA m'.watchers 5 = some ⟨⟨[1], [2]⟩, 5, 0, []⟩
      ∧ ∃ ids, lookupA m'.index ⟨[1], [2]⟩ = some ids ∧ (5 : Int) ∈ ids)
    ∧ WatcherMap.insert ⟨[(5, ⟨⟨[1], [2]⟩, 5, 0, []⟩)], [(⟨[1], [2]⟩, [5])]⟩
        ⟨⟨[3], [4]⟩, 5, 0, []⟩ = none
    ∧ (∃ m', WatcherMap.remove ⟨[(5, ⟨⟨[1], [2]⟩, 5, 0, []⟩)], [(⟨[1], [2]⟩, [5])]⟩ 5 = some m'
      ∧ lookupA m'.watchers 5 = none
      ∧ lookupA m'.index ⟨[1], [2]⟩ =
          (if ([5] : List Int).filter (fun i => decide (i ≠ 5)) = [] then none
            else some (([5] : List Int).filter (fun i => decide (i ≠ 5)))))
    ∧ WatcherMap.remove ⟨[], []⟩ 9 = none :=
  ⟨c8_watcher_map_insert_remove.1 ⟨[], []⟩ ⟨⟨[1], [2]⟩, 5, 0, []⟩ (by decide)
      (by intro ids h; cases h),
    c8_watcher_map_insert_remove.2.1 ⟨[(5, ⟨⟨[1], [2]⟩, 5, 0, []⟩)], [(⟨[1], [2]⟩, [5])]⟩
      ⟨⟨[3], [4]⟩, 5, 0, []⟩ (by decide),
    c8_watcher_map_insert_remove.2.2.1 ⟨[(5, ⟨⟨[1], [2]⟩, 5, 0, []⟩)], [(⟨[1], [2]⟩, [5])]⟩
      5 ⟨⟨[1], [2]⟩, 5, 0, []⟩ [5] (by decide) (by decide) (by decide) (by decide) (by decide),
    c8_watcher_map_insert_remove.2.2.2 ⟨[], []⟩ 9 (by decide)⟩

/-- C9: delivering to a watcher whose channel is closed fires its stop
signal and leaves the channel queue untouched; the delivery path never
mutates the watcher map (it only reads it — `Watcher.notify` acts on the
channel state alone), and the watcher stays registered until a subsequent
cancel (`WatcherMap.remove`) removes it. -/
theorem c9_closed_channel_fires_stop :
    ∀ (w : Watcher) (c : ChanState) (revision : Int) (events : List Event)
      (r : WatchResponse) (m : WatcherMap) (ids : List Int),
      c.closed = true →
      w.notifyResponse revision events = some r →
      (m.watchers.map Prod.fst).Nodup →
      (m.index.map Prod.fst).Nodup →
      lookupA m.watchers w.watch_id = some w →
      lookupA m.index w.key_range = some ids →
      w.watch_id ∈ ids →
      Watcher.notify w c revision events = some { c with stopFired := true }
      ∧ ∃ m', m.remove w.watch_id = some m' ∧ lookupA m'.watchers w.watch_id = none := by
  intro w c revision events r m ids hcl hresp hndw hndi hw hb hmem
  constructor
  · unfold Watcher.notify
    rw [hresp]
    simp only [hcl, if_true]
  · obtain ⟨m', hrm, hlk, _⟩ := watcherMap_remove_found m w.watch_id w ids hndw hndi hw hb hmem
    exact ⟨m', hrm, hlk⟩

theorem c9_closed_channel_fires_stop_witness :
    Watcher.notify ⟨⟨[1], []⟩, 7, 0, []⟩ ⟨true, [], 128, false⟩ 3
        [⟨0, some ⟨[1], [], 3⟩⟩]
      = some ⟨true, [], 128, true⟩
    ∧ ∃ m', WatcherMap.remove ⟨[(7, ⟨⟨[1], []⟩, 7, 0, []⟩)], [(⟨[1], []⟩, [7])]⟩ 7 = some m'
        ∧ lookupA m'.watchers 7 = none :=
  c9_closed_channel_fires_stop ⟨⟨[1], []⟩, 7, 0, []⟩ ⟨true, [], 128, false⟩ 3
    [⟨0, some ⟨[1], [], 3⟩⟩] ⟨3, 7, [⟨0, some ⟨[1], [], 3⟩⟩]⟩
    ⟨[(7, ⟨⟨[1], []⟩, 7, 0, []⟩)], [(⟨[1], []⟩, [7])]⟩ [7]
    (by decide) (by decide) (by decide) (by decide) (by decide) (by decide) (by decide)

/-- C10 (implicit): a delivered `WatchResponse` is never empty —
`Watcher::notify` returns before sending when the batch revision is below
the start revision or when the filters exclude every event. -/
theorem c10_no_empty_watch_response :
    ∀ (w : Watcher) (revision : Int) (events : List Event) (r : WatchResponse),
      w.notifyResponse revision events = some r → r.events ≠ [] := by
  intro w revision events r h
  unfold Watcher.notifyResponse at h
  split at h
  · cases h
  · split at h
    · cases h
    · next h2 =>
      cases h
      exact h2

theorem c10_no_empty_watch_response_witness :
    Watcher.notifyResponse ⟨⟨[1], []⟩, 7, 0, []⟩ 3 [⟨0, some ⟨[1], [], 3⟩⟩]
      = some ⟨3, 7, [⟨0, some ⟨[1], [], 3⟩⟩]⟩
    ∧ (⟨3, 7, [⟨0, some ⟨[1], [], 3⟩⟩]⟩ : WatchResponse).events ≠ [] :=
  ⟨by decide,
    c10_no_empty_watch_response ⟨⟨[1], []⟩, 7, 0, []⟩ 3 [⟨0, some ⟨[1], [], 3⟩⟩]
      ⟨3, 7, [⟨0, some ⟨[1], [], 3⟩⟩]⟩ (by decide)⟩

/-- C5: the claim says a registration with `start_rev ≠ 0` delivers the
hydrated events as a single `WatchResponse`, but the delivery goes through
`Watcher::notify`, which applies the watcher's event-type filters: with
filter `[0]` and a single hydrated PUT event (type 0, `mod_revision = 5 ≥
start_rev = 1`) the registration succeeds and delivers nothing. -/
theorem c5_watch_hydration_filtered_cex :
    ([⟨0, some ⟨[1], [], 5⟩⟩] : List Event) ≠ []
    ∧ (kvWatcherWatch ⟨[], []⟩ 10 [⟨0, some ⟨[1], [], 5⟩⟩] 1 ⟨[1], []⟩ 1 [0]).map Prod.snd
        = some none := by
  refine ⟨by decide, by decide⟩

/-- C5 (amended): registering with `start_rev = 0` performs no backfill and
sets the effective start revision to `current_revision + 1`; the same
happens when `start_rev ≠ 0` but hydration returns no events
(`initial_events.is_empty()`), with nothing delivered.  Registering with
`start_rev ≠ 0` and a non-empty hydration result delivers, as a single
`WatchResponse` whose revision is the last hydrated event's
`mod_revision`, exactly the hydrated events not excluded by the watcher's
filters — nothing when all are excluded — and sets the effective start
revision to that `mod_revision + 1`. -/
theorem c5_watch_registration :
    (∀ (m : WatcherMap) (currentRev : Int) (hydrated : List Event)
        (id : Int) (kr : KeyRange) (filters : List Int),
      lookupA m.watchers id = none →
      (∀ ids, lookupA m.index kr = some ids → id ∉ ids) →
      ∃ m', kvWatcherWatch m currentRev hydrated id kr 0 filters = some (m', none)
        ∧ lookupA m'.watchers id = some ⟨kr, id, currentRev + 1, filters⟩)
    ∧ (∀ (m : WatcherMap) (currentRev : Int)
        (id : Int) (kr : KeyRange) (s : Int) (filters : List Int),
      s ≠ 0 →
      lookupA m.watchers id = none →
      (∀ ids, lookupA m.index kr = some ids → id ∉ ids) →
      ∃ m', kvWatcherWatch m currentRev [] id kr s filters = some (m', none)
        ∧ lookupA m'.watchers id = some ⟨kr, id, currentRev + 1, filters⟩)
    ∧ (∀ (m : WatcherMap) (currentRev : Int) (hydrated : List Event)
        (id : Int) (kr : KeyRange) (s : Int) (filters : List Int)
        (lastE : Event) (kvv : KeyValue),
      s ≠ 0 →
      hydrated.getLast? = some lastE →
      lastE.kv = some kvv →
      s ≤ kvv.mod_revision →
      lookupA m.watchers id = none →
      (∀ ids, lookupA m.index kr = some ids → id ∉ ids) →
      ∃ m', kvWatcherWatch m currentRev hydrated id kr s filters
          = some (m',
              if hydrated.filter (fun e => filters.all (fun f => decide (f ≠ e.type_))) = []
              then none
              else some ⟨kvv.mod_revision, id,
                hydrated.filter (fun e => filters.all (fun f => decide (f ≠ e.type_)))⟩)
        ∧ lookupA m'.watchers id = some ⟨kr, id, kvv.mod_revision + 1, filters⟩) := by
  refine ⟨?_, ?_, ?_⟩
  · intro m currentRev hydrated id kr filters hw hb
    obtain ⟨m', hins, hlk, _⟩ :=
      watcherMap_insert_fresh m ⟨kr, id, currentRev + 1, filters⟩ hw hb
    refine ⟨m', ?_, hlk⟩
    simp [kvWatcherWatch, hins]
  · intro m currentRev id kr s filters _ hw hb
    obtain ⟨m', hins, hlk, _⟩ :=
      watcherMap_insert_fresh m ⟨kr, id, currentRev + 1, filters⟩ hw hb
    refine ⟨m', ?_, hlk⟩
    simp [kvWatcherWatch, hins, ite_self]
  · intro m currentRev hydrated id kr s filters lastE kvv hs hlast hkv hle hw hb
    obtain ⟨m', hins, hlk, _⟩ :=
      watcherMap_insert_fresh m ⟨kr, id, kvv.mod_revision + 1, filters⟩ hw hb
    refine ⟨m', ?_, hlk⟩
    simp only [kvWatcherWatch]
    rw [if_neg hs]
    simp only [hlast, hkv, hins, Option.map_some]
    simp only [Watcher.notifyResponse]
    rw [if_neg (Int.not_lt.mpr hle)]
    rfl

theorem c5_watch_registration_witness :
    (lookupA (⟨[], []⟩ : WatcherMap).watchers 2 = none
      ∧ ∃ m', kvWatcherWatch ⟨[], []⟩ 10 [] 2 ⟨[1], []⟩ 0 [] = some (m', none)
          ∧ lookupA m'.watchers 2 = some ⟨⟨[1], []⟩, 2, 11, []⟩)
    ∧ ((7 : Int) ≠ 0
      ∧ ∃ m', kvWatcherWatch ⟨[], []⟩ 10 [] 3 ⟨[2], []⟩ 7 [] = some (m', none)
          ∧ lookupA m'.watchers 3 = some ⟨⟨[2], []⟩, 3, 11, []⟩)
    ∧ ((1 : Int) ≠ 0
      ∧ ∃ m', kvWatcherWatch ⟨[], []⟩ 10 [⟨0, some ⟨[1], [], 5⟩⟩] 2 ⟨[1], []⟩ 1 []
            = some (m',
                if ([⟨0, some ⟨[1], [], 5⟩⟩] : List Event).filter
                    (fun e => ([] : List Int).all (fun f => decide (f ≠ e.type_))) = []
                then none
                else some ⟨5, 2, ([⟨0, some ⟨[1], [], 5⟩⟩] : List Event).filter
                    (fun e => ([] : List Int).all (fun f => decide (f ≠ e.type_)))⟩)
          ∧ lookupA m'.watchers 2 = some ⟨⟨[1], []⟩, 2, 6, []⟩) :=
  ⟨⟨by decide,
      c5_watch_registration.1 ⟨[], []⟩ 10 [] 2 ⟨[1], []⟩ [] (by decide)
        (by intro ids h; cases h)⟩,
    ⟨by decide,
      c5_watch_registration.2.1 ⟨[], []⟩ 10 3 ⟨[2], []⟩ 7 [] (by decide) (by decide)
        (by intro ids h; cases h)⟩,
    ⟨by decide,
      c5_watch_registration.2.2 ⟨[], []⟩ 10 [⟨0, some ⟨[1], [], 5⟩⟩] 2 ⟨[1], []⟩ 1 []
        ⟨0, some ⟨[1], [], 5⟩⟩ ⟨[1], [], 5⟩ (by decide) (by decide) (by decide) (by decide)
        (by decide) (by intro ids h; cases h)⟩⟩

/-! ## C4: the delivered event sequence of a watcher -/

/-- The `mod_revision` an event carries (0 when it has no `kv`; such events
make the dispatcher panic and never reach a watcher). -/
def evRev (e : Event) : Int :=
  match e.kv with
  | none => 0
  | some kv => kv.mod_revision

/-- The subsequence of a published event list that the claim says watcher
`w` must receive: key in range, `mod_revision` at least the start revision,
type not filtered. -/
def eventsFilter (w : Watcher) (events : List Event) : List Event :=
  events.filter (fun e =>
    match e.kv with
    | none => false
    | some kv =>
      w.key_range.contains_key kv.key && decide (w.start_rev ≤ kv.mod_revision)
        && w.filters.all (fun f => decide (f ≠ e.type_)))

/-- The events delivered to watch id `id` by a list of
`(watch_id, WatchResponse)` deliveries, in order. -/
def deliveredTo (id : Int) (ds : List (Int × WatchResponse)) : List Event :=
  (ds.filter (fun d => decide (d.1 = id))).flatMap (fun d => d.2.events)

/-- The dispatch of batches from the KV store's event channel, one
`handle_kv_updates` call per batch (the background task of
`KvWatcher::new_arc`). -/
def handleStream (m : WatcherMap) (stream : List (Int × List Event)) :
    Option (List (List (Int × WatchResponse))) :=
  stream.mapM (fun b => handleKvUpdates m b.1 b.2)

/-- Well-formedness of a watcher's registration in the map, as established
by `WatcherMap::insert`: the watcher is bound to its id, ids are unique,
the watcher's id sits in exactly the bucket of its own key range, and every
indexed id resolves in `watchers`. -/
def watcherRegistered (m : WatcherMap) (w : Watcher) : Prop :=
  lookupA m.watchers w.watch_id = some w
  ∧ (m.watchers.map Prod.fst).Nodup
  ∧ (∀ p ∈ m.index, (w.watch_id ∈ p.2 ↔ p.1 = w.key_range))
  ∧ (∃ p ∈ m.index, w.watch_id ∈ p.2)
  ∧ (∀ p ∈ m.index, ∀ i ∈ p.2, (lookupA m.watchers i).isSome)

theorem deliveredTo_cons (id : Int) (d : Int × WatchResponse) (ds : List (Int × WatchResponse)) :
    deliveredTo id (d :: ds)
      = (if d.1 = id then d.2.events else []) ++ deliveredTo id ds := by
  unfold deliveredTo
  by_cases h : d.1 = id
  · simp [List.filter_cons, h]
  · simp [List.filter_cons, h]

theorem deliveredTo_nil_of_not_mem (id : Int) (g : Int → Watcher → Option WatchResponse) :
    ∀ (l : List (Int × Watcher)), id ∉ l.map Prod.fst →
      deliveredTo id (l.filterMap (fun p => (g p.1 p.2).map (fun r => (p.1, r)))) = [] := by
  intro l
  induction l with
  | nil => intro _; rfl
  | cons p rest ih =>
    intro h
    simp only [List.map_cons, List.mem_cons] at h
    push_neg at h
    simp only [List.filterMap_cons]
    cases hg : (g p.1 p.2).map (fun r => (p.1, r)) with
    | none => exact ih h.2
    | some d =>
      have hd1 : d.1 = p.1 := by
        cases hgg : g p.1 p.2 with
        | none => rw [hgg] at hg; cases hg
        | some r => rw [hgg] at hg; cases hg; rfl
      rw [deliveredTo_cons, if_neg (by rw [hd1]; exact fun hc => h.1 hc.symm), List.nil_append]
      exact ih h.2

theorem deliveredTo_filterMap (id : Int) (w : Watcher) (g : Int → Watcher → Option WatchResponse) :
    ∀ (l : List (Int × Watcher)), lookupA l id = some w → (l.map Prod.fst).Nodup →
      deliveredTo id (l.filterMap (fun p => (g p.1 p.2).map (fun r => (p.1, r))))
        = (match g id w with
            | none => []
            | some r => r.events) := by
  intro l
  induction l with
  | nil => intro h _; simp [lookupA] at h
  | cons p rest ih =>
    intro hl hnd
    obtain ⟨a, wa⟩ := p
    simp only [List.map_cons, List.nodup_cons] at hnd
    simp only [lookupA] at hl
    simp only [List.filterMap_cons]
    by_cases ha : a = id
    · subst ha
      rw [if_pos rfl] at hl
      have hl' : wa = w := Option.some.inj hl
      subst hl'
      cases hg : g a wa with
      | none =>
        simp only [Option.map_none']
        rw [deliveredTo_nil_of_not_mem a g rest hnd.1]
      | some r =>
        simp only [Option.map_some']
        rw [deliveredTo_cons, if_pos rfl, deliveredTo_nil_of_not_mem a g rest hnd.1,
          List.append_nil]
    · rw [if_neg ha] at hl
      cases hg : g a wa with
      | none =>
        simp only [Option.map_none']
        exact ih hl hnd.2
      | some r =>
        simp only [Option.map_some']
        rw [deliveredTo_cons, if_neg ha, List.nil_append]
        exact ih hl hnd.2

theorem mem_indexSelects_iff (m : WatcherMap) (w : Watcher)
    (hidx : ∀ p ∈ m.index, (w.watch_id ∈ p.2 ↔ p.1 = w.key_range))
    (hex : ∃ p ∈ m.index, w.watch_id ∈ p.2) (kv : KeyValue) :
    w.watch_id ∈ indexSelects m kv ↔ w.key_range.contains_key kv.key = true := by
  unfold indexSelects
  rw [List.mem_flatMap]
  constructor
  · rintro ⟨b, hb, hmem⟩
    rw [List.mem_filter] at hb
    rw [← (hidx b hb.1).mp hmem]
    exact hb.2
  · intro hck
    obtain ⟨p, hp, hm⟩ := hex
    refine ⟨p, List.mem_filter.mpr ⟨hp, ?_⟩, hm⟩
    rw [(hidx p hp).mp hm]
    exact hck

theorem eventsFor_eq (m : WatcherMap) (w : Watcher)
    (hidx : ∀ p ∈ m.index, (w.watch_id ∈ p.2 ↔ p.1 = w.key_range))
    (hex : ∃ p ∈ m.index, w.watch_id ∈ p.2) (evs : List Event) :
    eventsFor m w.watch_id w evs
      = evs.filter (fun e =>
          match e.kv with
          | none => false
          | some kv => w.key_range.contains_key kv.key && decide (w.start_rev ≤ kv.mod_revision)) := by
  apply List.filter_congr
  intro e _
  cases hkv : e.kv with
  | none => simp only [hkv]
  | some kv =>
    simp only [hkv]
    congr 1
    have h := mem_indexSelects_iff m w hidx hex kv
    cases hck : w.key_range.contains_key kv.key with
    | false =>
      apply decide_eq_false
      intro hmem
      rw [hck] at h
      exact absurd (h.mp hmem) (by simp)
    | true => exact decide_eq_true (h.mpr hck)

theorem notifyResponse_events_of_le (w : Watcher) (rev : Int) (l : List Event)
    (h : ¬ rev < w.start_rev) :
    (match w.notifyResponse rev l with
      | none => ([] : List Event)
      | some r => r.events)
      = l.filter (fun e => w.filters.all (fun f => decide (f ≠ e.type_))) := by
  unfold Watcher.notifyResponse
  rw [if_neg h]
  by_cases hemp : l.filter (fun e => w.filters.all (fun f => decide (f ≠ e.type_))) = []
  · rw [if_pos hemp]
    exact hemp.symm
  · rw [if_neg hemp]

theorem eventsFilter_nil_of_lt (w : Watcher) (rev : Int) (evs : List Event)
    (hkv : ∀ e ∈ evs, ∃ kv, e.kv = some kv ∧ kv.mod_revision = rev)
    (hrev : rev < w.start_rev) : eventsFilter w evs = [] := by
  unfold eventsFilter
  rw [List.filter_eq_nil_iff]
  intro e he
  obtain ⟨kv, hk, hm⟩ := hkv e he
  simp [hk, hm, not_le.mpr hrev]

theorem eventsFilter_rev (w : Watcher) (rev : Int) (evs : List Event)
    (hkv : ∀ e ∈ evs, ∃ kv, e.kv = some kv ∧ kv.mod_revision = rev) :
    ∀ e ∈ eventsFilter w evs, evRev e = rev := by
  intro e he
  obtain ⟨kv, hk, hm⟩ := hkv e (List.mem_filter.mp he).1
  simp [evRev, hk, hm]

theorem handleKvUpdates_batch (m : WatcherMap) (w : Watcher) (rev : Int) (evs : List Event)
    (hreg : watcherRegistered m w)
    (hkv : ∀ e ∈ evs, ∃ kv, e.kv = some kv ∧ kv.mod_revision = rev) :
    ∃ ds, handleKvUpdates m rev evs = some ds
      ∧ deliveredTo w.watch_id ds = eventsFilter w evs := by
  obtain ⟨hlk, hnd, hidx, hex, hwatch⟩ := hreg
  have hA : evs.any (fun e => e.kv.isNone) = false := by
    rw [List.any_eq_false]
    intro e he
    obtain ⟨kv, hk, _⟩ := hkv e he
    simp [hk]
  have hB : evs.any (fun event =>
      match event.kv with
      | none => false
      | some kv => (indexSelects m kv).any (fun i => (lookupA m.watchers i).isNone)) = false := by
    rw [List.any_eq_false]
    intro e he
    obtain ⟨kv, hk, _⟩ := hkv e he
    simp only [hk]
    intro hc
    obtain ⟨i, hi, hnone⟩ := List.any_eq_true.mp hc
    unfold indexSelects at hi
    rw [List.mem_flatMap] at hi
    obtain ⟨b, hb, hbi⟩ := hi
    have hsome := hwatch b (List.mem_filter.mp hb).1 i hbi
    cases hlo : lookupA m.watchers i with
    | none => rw [hlo] at hsome; cases hsome
    | some wa => rw [hlo] at hnone; cases hnone
  refine ⟨m.watchers.filterMap (fun p =>
      (Watcher.notifyResponse p.2 rev (eventsFor m p.1 p.2 evs)).map (fun r => (p.1, r))),
    ?_, ?_⟩
  · unfold handleKvUpdates
    rw [hA, hB]
    rfl
  · rw [deliveredTo_filterMap w.watch_id w
      (fun i wa => Watcher.notifyResponse wa rev (eventsFor m i wa evs)) m.watchers hlk hnd]
    rw [eventsFor_eq m w hidx hex evs]
    by_cases hrev : rev < w.start_rev
    · have hq : evs.filter (fun e =>
          match e.kv with
          | none => false
          | some kv =>
            w.key_range.contains_key kv.key && decide (w.start_rev ≤ kv.mod_revision)) = [] := by
        rw [List.filter_eq_nil_iff]
        intro e he
        obtain ⟨kv, hk, hm⟩ := hkv e he
        simp [hk, hm, not_le.mpr hrev]
      rw [hq]
      have hn : Watcher.notifyResponse w rev [] = none := by
        unfold Watcher.notifyResponse
        rw [if_pos hrev]
      rw [hn, eventsFilter_nil_of_lt w rev evs hkv hrev]
    · rw [notifyResponse_events_of_le w rev _ hrev, List.filter_filter]
      apply List.filter_congr
      intro e _
      cases hk : e.kv with
      | none => simp only [hk, Bool.and_false]
      | some kv =>
        simp only [hk]
        rw [Bool.and_comm]

theorem pairwise_le_of_all_eq {l : List Int} {r : Int} (h : ∀ x ∈ l, x = r) :
    l.Pairwise (fun a b => a ≤ b) := by
  induction l with
  | nil => exact List.Pairwise.nil
  | cons x rest ih =>
    rw [List.pairwise_cons]
    refine ⟨fun y hy => ?_, ih (fun y hy => h y (List.mem_cons_of_mem _ hy))⟩
    rw [h x (List.mem_cons_self x rest), h y (List.mem_cons_of_mem _ hy)]

theorem eventsFilter_append (w : Watcher) (l₁ l₂ : List Event) :
    eventsFilter w (l₁ ++ l₂) = eventsFilter w l₁ ++ eventsFilter w l₂ :=
  List.filter_append _ _

/-- C4: two events of the same update batch carry the same `mod_revision`
(one revision, two keys — e.g. a range deletion), and both reach a watcher
covering both keys in one `WatchResponse`: the delivered sequence `[5, 5]`
is not strictly increasing, refuting the claim's strict order. -/
theorem c4_same_revision_batch_cex :
    handleKvUpdates ⟨[(1, ⟨⟨[1], [3]⟩, 1, 1, []⟩)], [(⟨[1], [3]⟩, [1])]⟩ 5
        [⟨0, some ⟨[1], [], 5⟩⟩, ⟨0, some ⟨[2], [], 5⟩⟩]
      = some [(1, ⟨5, 1, [⟨0, some ⟨[1], [], 5⟩⟩, ⟨0, some ⟨[2], [], 5⟩⟩]⟩)]
    ∧ (deliveredTo 1 [(1, ⟨5, 1, [⟨0, some ⟨[1], [], 5⟩⟩, ⟨0, some ⟨[2], [], 5⟩⟩]⟩)]).map evRev
        = [5, 5]
    ∧ ¬ (([5, 5] : List Int).Pairwise (fun a b => a < b)) := by
  refine ⟨by decide, by decide, by decide⟩

/-- C4 (amended): for a registered watcher, the events delivered across a
stream of update batches (each event of a batch carrying that batch's
revision as its `mod_revision`, batch revisions strictly increasing) are
exactly the published events with key in the watcher's range,
`mod_revision ≥` the watcher's start revision, and type not filtered —
each exactly once, in order — and their `mod_revision`s are non-decreasing
(strictly increasing across batches; events within one batch share their
revision). -/
theorem c4_watcher_delivery_filtered_in_order :
    ∀ (m : WatcherMap) (w : Watcher) (stream : List (Int × List Event)),
      watcherRegistered m w →
      (∀ b ∈ stream, ∀ e ∈ b.2, ∃ kv, e.kv = some kv ∧ kv.mod_revision = b.1) →
      (stream.map Prod.fst).Pairwise (fun a b => a < b) →
      ∃ dss, handleStream m stream = some dss
        ∧ (dss.map (deliveredTo w.watch_id)).flatten
            = eventsFilter w (stream.flatMap (fun b => b.2))
        ∧ (((dss.map (deliveredTo w.watch_id)).flatten).map evRev).Pairwise (fun a b => a ≤ b)
        ∧ (∀ e ∈ (dss.map (deliveredTo w.watch_id)).flatten,
            evRev e ∈ stream.map Prod.fst) := by
  intro m w stream hreg
  induction stream with
  | nil =>
    intro _ _
    refine ⟨[], rfl, rfl, List.Pairwise.nil, ?_⟩
    intro e he
    cases he
  | cons b rest ih =>
    intro hkv hpw
    simp only [List.map_cons, List.pairwise_cons] at hpw
    obtain ⟨hlt, hpw'⟩ := hpw
    obtain ⟨ds₀, hds₀, hdel₀⟩ :=
      handleKvUpdates_batch m w b.1 b.2 hreg (hkv b (List.mem_cons_self b rest))
    obtain ⟨dss', h1, h2, h3, h4⟩ :=
      ih (fun b' hb' => hkv b' (List.mem_cons_of_mem _ hb')) hpw'
    refine ⟨ds₀ :: dss', ?_, ?_, ?_, ?_⟩
    · unfold handleStream at h1 ⊢
      rw [List.mapM_cons, hds₀, h1]
      rfl
    · simp only [List.map_cons, List.flatten_cons, List.flatMap_cons]
      rw [eventsFilter_append, hdel₀, h2]
    · simp only [List.map_cons, List.flatten_cons]
      rw [List.map_append, List.pairwise_append]
      refine ⟨?_, h3, ?_⟩
      · apply pairwise_le_of_all_eq
        intro x hx
        rw [List.mem_map] at hx
        obtain ⟨e, he, rfl⟩ := hx
        rw [hdel₀] at he
        exact eventsFilter_rev w b.1 b.2 (hkv b (List.mem_cons_self b rest)) e he
      · intro x hx y hy
        rw [List.mem_map] at hx
        obtain ⟨e, he, rfl⟩ := hx
        rw [hdel₀] at he
        rw [List.mem_map] at hy
        obtain ⟨e', he', rfl⟩ := hy
        rw [eventsFilter_rev w b.1 b.2 (hkv b (List.mem_cons_self b rest)) e he]
        exact le_of_lt (hlt _ (h4 e' he'))
    · intro e he
      simp only [List.map_cons, List.flatten_cons, List.mem_append] at he
      rcases he with he | he
      · rw [hdel₀] at he
        simp only [List.map_cons]
        rw [eventsFilter_rev w b.1 b.2 (hkv b (List.mem_cons_self b rest)) e he]
        exact List.mem_cons_self _ _
      · simp only [List.map_cons]
        exact List.mem_cons_of_mem _ (h4 e he)

theorem c4_watcher_delivery_filtered_in_order_witness :
    watcherRegistered ⟨[(1, ⟨⟨[1], [3]⟩, 1, 1, []⟩)], [(⟨[1], [3]⟩, [1])]⟩
        ⟨⟨[1], [3]⟩, 1, 1, []⟩
    ∧ ∃ dss,
        handleStream ⟨[(1, ⟨⟨[1], [3]⟩, 1, 1, []⟩)], [(⟨[1], [3]⟩, [1])]⟩
            [(5, [⟨0, some ⟨[1], [], 5⟩⟩]), (6, [⟨1, some ⟨[2], [], 6⟩⟩])] = some dss
        ∧ (dss.map (deliveredTo (⟨⟨[1], [3]⟩, 1, 1, []⟩ : Watcher).watch_id)).flatten
            = eventsFilter ⟨⟨[1], [3]⟩, 1, 1, []⟩
                ([(5, [⟨0, some ⟨[1], [], 5⟩⟩]), (6, [⟨1, some ⟨[2], [], 6⟩⟩])].flatMap
                  (fun b => b.2))
        ∧ (((dss.map (deliveredTo (⟨⟨[1], [3]⟩, 1, 1, []⟩ : Watcher).watch_id)).flatten).map
              evRev).Pairwise (fun a b => a ≤ b)
        ∧ (∀ e ∈ (dss.map (deliveredTo (⟨⟨[1], [3]⟩, 1, 1, []⟩ : Watcher).watch_id)).flatten,
            evRev e ∈ ([(5, [⟨0, some ⟨[1], [], 5⟩⟩]),
              (6, [⟨1, some ⟨[2], [], 6⟩⟩])] : List (Int × List Event)).map Prod.fst) :=
  ⟨by unfold watcherRegistered; decide,
    c4_watcher_delivery_filtered_in_order
      ⟨[(1, ⟨⟨[1], [3]⟩, 1, 1, []⟩)], [(⟨[1], [3]⟩, [1])]⟩ ⟨⟨[1], [3]⟩, 1, 1, []⟩
      [(5, [⟨0, some ⟨[1], [], 5⟩⟩]), (6, [⟨1, some ⟨[2], [], 6⟩⟩])]
      (by unfold watcherRegistered; decide)
      (by
        intro b hb e he
        rcases List.mem_cons.mp hb with rfl | hb
        · rcases List.mem_cons.mp he with rfl | he
          · exact ⟨⟨[1], [], 5⟩, rfl, rfl⟩
          · cases he
        · rcases List.mem_cons.mp hb with rfl | hb
          · rcases List.mem_cons.mp he with rfl | he
            · exact ⟨⟨[2], [], 6⟩, rfl, rfl⟩
            · cases he
          · cases hb)
      (by decide)⟩


